import Mathlib

/-!
Verification development for the NuGet Package Upgrade extension
(`src/extension.ts`).  The core logic of the extension is embedded
shallowly:

* `extractJsonPayload` mirrors the brace-slicing payload extractor;
* `parseOutdatedPackages` mirrors the normalization of the parsed JSON
  document into deduplicated `OutdatedPackage` candidates (the external
  `JSON.parse` builtin is modelled by working directly on an already
  parsed `JValue`; a parse exception is modelled as an absent value at
  the orchestrator level);
* `toItem` mirrors the QuickPick item mapping;
* `selectPayload` / `noPayload` mirror the stdout-else-stderr payload
  selection and the blank-payload check;
* `runUpgradeCommand` mirrors the orchestration in `activate`, recording
  the external calls that are issued.

JavaScript semantics that matter here are modelled explicitly: `Set`
keeps insertion order (ordered duplicate-free lists), `Map` keeps
insertion order (association lists with append on fresh keys), `??` is
nullish coalescing, `if (x)` on a string is truthiness (the empty string
is falsy), and template literals stringify non-string values.
-/

/-- Model of a parsed JSON document.  `undefined` is represented at use
sites by `Option JValue` (`none` = absent property), while `null` is the
explicit `JValue.null`.  JSON numbers are modelled as integers; no claim
depends on fractional number formatting. -/
inductive JValue where
  | null : JValue
  | bool : Bool → JValue
  | num : Int → JValue
  | str : String → JValue
  | arr : List JValue → JValue
  | obj : List (String × JValue) → JValue
  deriving Repr

/-- Property lookup `v.k` / `v?.k`: an object yields its field (objects
produced by `JSON.parse` have unique keys, so first match suffices);
any other value yields `undefined`. -/
def jsGet : JValue → String → Option JValue
  | JValue.obj fields, k => lookupField fields k
  | _, _ => none
where
  lookupField : List (String × JValue) → String → Option JValue
    | [], _ => none
    | (k, v) :: rest, k0 => if k = k0 then some v else lookupField rest k0

/-- Nullish test: `undefined` or `null`. -/
def isNullish : Option JValue → Bool
  | none => true
  | some JValue.null => true
  | some _ => false

/-- Nullish coalescing `a ?? b`. -/
def jsCoalesce (a b : Option JValue) : Option JValue :=
  if isNullish a then b else a

/-- Applies a final `?? "unknown"` fallback, as in
`project?.name ?? project?.path ?? "unknown"`. -/
def orUnknown (v : Option JValue) : JValue :=
  if isNullish v then JValue.str "unknown" else v.getD (JValue.str "unknown")

mutual
/-- String conversion performed by a template literal on a JavaScript
value (arrays join their elements with commas; objects print as
"[object Object]"). -/
def jsToString : JValue → String
  | JValue.null => "null"
  | JValue.bool true => "true"
  | JValue.bool false => "false"
  | JValue.num n => toString n
  | JValue.str s => s
  | JValue.arr xs => jsJoinComma xs
  | JValue.obj _ => "[object Object]"

/-- Array.prototype.toString: elements joined with ",", with `null`
elements rendered as the empty string. -/
def jsJoinComma : List JValue → String
  | [] => ""
  | [JValue.null] => ""
  | [x] => jsToString x
  | JValue.null :: xs => "," ++ jsJoinComma xs
  | x :: xs => jsToString x ++ "," ++ jsJoinComma xs
end

/-- First index of character `c` in a character list
(JavaScript `indexOf`, with `none` for `-1`). -/
def firstIdx (c : Char) : List Char → Option Nat
  | [] => none
  | x :: xs => if x = c then some 0 else (firstIdx c xs).map (· + 1)

/-- Last index of character `c` in a character list
(JavaScript `lastIndexOf`, with `none` for `-1`). -/
def lastIdx (c : Char) : List Char → Option Nat
  | [] => none
  | x :: xs =>
    match lastIdx c xs with
    | some k => some (k + 1)
    | none => if x = c then some 0 else none

/-- The payload extractor of `extension.ts`: slice from the first `{` to
the last `}` inclusive, returning the input unchanged when either brace
is absent or the last `}` does not strictly follow the first `{`. -/
def extractJsonPayload (text : String) : String :=
  match firstIdx '{' text.data, lastIdx '}' text.data with
  | some firstBrace, some lastBrace =>
    if lastBrace ≤ firstBrace then text
    else String.mk ((text.data.drop firstBrace).take (lastBrace + 1 - firstBrace))
  | _, _ => text

theorem extractJsonPayload_sanity_noise :
    extractJsonPayload "noise {a:1} tail" = "{a:1}" := by decide

theorem extractJsonPayload_sanity_plain :
    extractJsonPayload "no braces" = "no braces" := by decide

theorem extractJsonPayload_sanity_reversed :
    extractJsonPayload (String.mk ['\x7d', '\x7b']) = String.mk ['\x7d', '\x7b'] := by
  decide

/-- The `OutdatedPackage` record from `extension.ts`.  The JavaScript
`Set` fields are modelled as insertion-ordered duplicate-free lists. -/
structure OutdatedPackage where
  id : String
  resolvedVersions : List String
  latestVersions : List String
  contexts : List String
  deriving DecidableEq, Repr

/-- JavaScript `Set.prototype.add`: append the element when it is not
already present. -/
def addToSet (s : List String) (x : String) : List String :=
  if x ∈ s then s else s ++ [x]

/-- The guarded insertion `if (v) { set.add(v) }` used for version
fields: a `string`-typed value is added only when truthy (non-empty). -/
def addTruthy (s : List String) : Option String → List String
  | none => s
  | some v => if v = "" then s else addToSet s v

/-- The id computation `pkg?.id ?? pkg?.name` followed by the guard
`if (!id || typeof id !== "string") continue`: the entry is usable
exactly when the coalesced value is a non-empty string. -/
def getId (pkg : JValue) : Option String :=
  match jsCoalesce (jsGet pkg "id") (jsGet pkg "name") with
  | some (JValue.str s) => if s = "" then none else some s
  | _ => none

/-- The version extraction
`typeof pkg?.f === "string" ? pkg.f : undefined`. -/
def getStr (pkg : JValue) (field : String) : Option String :=
  match jsGet pkg field with
  | some (JValue.str s) => some s
  | _ => none

/-- One `Map.get`-or-create cycle followed by the three set insertions
of the package loop body.  A fresh entry is appended (JavaScript `Map`
keeps insertion order); an existing entry is updated in place. -/
def updateMap : List OutdatedPackage → String → Option String → Option String → String →
    List OutdatedPackage
  | [], id, resolved, latest, context =>
    [⟨id, addTruthy [] resolved, addTruthy [] latest, addToSet [] context⟩]
  | p :: ps, id, resolved, latest, context =>
    if p.id = id then
      ⟨p.id, addTruthy p.resolvedVersions resolved, addTruthy p.latestVersions latest,
        addToSet p.contexts context⟩ :: ps
    else
      p :: updateMap ps id resolved latest context

/-- The field `data?.projects` guarded by `Array.isArray`. -/
def projectsOf (data : JValue) : List JValue :=
  match jsGet data "projects" with
  | some (JValue.arr l) => l
  | _ => []

/-- The field `project?.frameworks` guarded by `Array.isArray`. -/
def frameworksOf (project : JValue) : List JValue :=
  match jsGet project "frameworks" with
  | some (JValue.arr l) => l
  | _ => []

/-- The field `framework?.topLevelPackages` guarded by `Array.isArray`. -/
def topLevelOf (framework : JValue) : List JValue :=
  match jsGet framework "topLevelPackages" with
  | some (JValue.arr l) => l
  | _ => []

/-- The string `project?.name ?? project?.path ?? "unknown"` as rendered
into the template literal. -/
def projectLabel (project : JValue) : String :=
  jsToString (orUnknown (jsCoalesce (jsGet project "name") (jsGet project "path")))

/-- The string `framework?.name ?? "unknown"` as rendered into the
template literal. -/
def frameworkLabel (framework : JValue) : String :=
  jsToString (orUnknown (jsGet framework "name"))

/-- The composed context string of the loop body. -/
def mkContext (projectName frameworkName : String) : String :=
  projectName ++ " (" ++ frameworkName ++ ")"

/-- Body of the innermost loop over `topLevelPackages`. -/
def processPkg (m : List OutdatedPackage) (projectName frameworkName : String)
    (pkg : JValue) : List OutdatedPackage :=
  match getId pkg with
  | none => m
  | some id =>
    updateMap m id (getStr pkg "resolvedVersion") (getStr pkg "latestVersion")
      (mkContext projectName frameworkName)

/-- Body of the loop over `frameworks`. -/
def processFramework (m : List OutdatedPackage) (projectName : String)
    (framework : JValue) : List OutdatedPackage :=
  (topLevelOf framework).foldl
    (fun acc pkg => processPkg acc projectName (frameworkLabel framework) pkg) m

/-- Body of the loop over `projects`. -/
def processProject (m : List OutdatedPackage) (project : JValue) : List OutdatedPackage :=
  (frameworksOf project).foldl
    (fun acc fw => processFramework acc (projectLabel project) fw) m

/-- Insertion step of the final comparator sort, placing `c` before the
first element it does not compare strictly greater than. -/
def insertSorted (lc : String → String → Int) (c : OutdatedPackage) :
    List OutdatedPackage → List OutdatedPackage
  | [] => [c]
  | d :: ds => if lc c.id d.id ≤ 0 then c :: d :: ds else d :: insertSorted lc c ds

/-- The comparator sort `.sort((a, b) => a.id.localeCompare(b.id))`,
modelled as a stable insertion sort with respect to the comparator.
`localeCompare` itself is an external, locale-dependent comparison and
is kept abstract as the parameter `lc`. -/
def sortCandidates (lc : String → String → Int) (l : List OutdatedPackage) :
    List OutdatedPackage :=
  l.foldr (insertSorted lc) []

/-- The normalization of `parseOutdatedPackages`, starting from the
already-parsed document (`JSON.parse` being an external builtin): the
triple nested loop followed by the comparator sort. -/
def parseOutdatedPackages (lc : String → String → Int) (data : JValue) :
    List OutdatedPackage :=
  sortCandidates lc ((projectsOf data).foldl processProject [])

/-- The QuickPick item derived from a candidate. -/
structure SelectionItem where
  label : String
  description : String
  detail : String
  deriving DecidableEq, Repr

/-- The QuickPick item mapping of `activate`: when a version set is a
singleton its sole element (`Array.from(set)[0]`, i.e. the first and
only inserted element) stands in for the set, otherwise `undefined`;
the description is the delta when both stand-ins are truthy strings and
the literal "multiple versions" otherwise; the detail joins the context
set with "; ". -/
def toItem (pkg : OutdatedPackage) : SelectionItem :=
  let resolved : Option String :=
    if pkg.resolvedVersions.length = 1 then pkg.resolvedVersions.head? else none
  let latest : Option String :=
    if pkg.latestVersions.length = 1 then pkg.latestVersions.head? else none
  let description : String :=
    match resolved, latest with
    | some r, some l => if r ≠ "" ∧ l ≠ "" then r ++ " -> " ++ l else "multiple versions"
    | _, _ => "multiple versions"
  ⟨pkg.id, description, String.intercalate "; " pkg.contexts⟩

/-- Whitespace as recognised by JavaScript `String.prototype.trim`
(WhiteSpace and LineTerminator code points; the common ones suffice for
the characters that can occur here, and the full set is analogous). -/
def isJsWs (c : Char) : Bool :=
  c = ' ' ∨ c = '\t' ∨ c = '\n' ∨ c = '\r' ∨ c = '\x0b' ∨ c = '\x0c' ∨
    c = '\xa0' ∨ c = '﻿'

/-- JavaScript `String.prototype.trim`: strip leading and trailing
whitespace. -/
def jsTrim (s : String) : String :=
  String.mk (((s.data.dropWhile isJsWs).reverse.dropWhile isJsWs).reverse)

/-- Payload selection of `activate`:
`outdatedResult.stdout.trim().length ? outdatedResult.stdout : outdatedResult.stderr`. -/
def selectPayload (stdout stderr : String) : String :=
  if (jsTrim stdout).length ≠ 0 then stdout else stderr

/-- The guard `if (!jsonPayload.trim())` that triggers the
"No JSON output received" error. -/
def noPayload (stdout stderr : String) : Bool :=
  jsTrim (selectPayload stdout stderr) == ""

/-- External calls the orchestrator can issue, in the order recorded. -/
inductive ExtCall where
  | listPackage : ExtCall
  | outdatedCheck : ExtCall
  | toolProbe : ExtCall
  | toolInstall : ExtCall
  | upgrade : List String → ExtCall
  deriving DecidableEq, Repr

/-- Terminal outcome of one run of the command (which user-facing
notification ends the run). -/
inductive RunOutcome where
  | errNoWorkspace : RunOutcome
  | errListFailed : RunOutcome
  | errOutdatedFailed : RunOutcome
  | errNoPayload : RunOutcome
  | errParseFailed : RunOutcome
  | infoNoOutdated : RunOutcome
  | infoNothingSelected : RunOutcome
  | errInstallFailed : RunOutcome
  | errUpgradeFailed : RunOutcome
  | success : RunOutcome
  deriving DecidableEq, Repr

/-- The environment a run observes: results of the external processes,
the external `JSON.parse` (`none` models a thrown parse error on the
selected payload), the user's QuickPick selection (`none` models a
cancelled picker, labels otherwise), and the ambient `localeCompare`. -/
structure Env where
  hasWorkspace : Bool
  listCode : Int
  outdatedCode : Int
  outdatedStdout : String
  outdatedStderr : String
  parsed : Option JValue
  selection : Option (List String)
  probeCode : Int
  installCode : Int
  upgradeCode : Int
  lc : String → String → Int

/-- `ensureDotnetOutdated`: probe the tool version; when the probe
fails, attempt a global install and succeed only if the install exits
zero.  Returns the issued calls and the boolean result. -/
def ensureDotnetOutdated (probeCode installCode : Int) : List ExtCall × Bool :=
  if probeCode = 0 then ([ExtCall.toolProbe], true)
  else ([ExtCall.toolProbe, ExtCall.toolInstall], installCode = 0)

/-- The command handler registered by `activate`, as a function from the
observed environment to the list of issued external calls and the
terminal outcome. -/
def runUpgradeCommand (env : Env) : List ExtCall × RunOutcome :=
  if ¬ env.hasWorkspace then ([], RunOutcome.errNoWorkspace)
  else if env.listCode ≠ 0 then ([ExtCall.listPackage], RunOutcome.errListFailed)
  else if env.outdatedCode ≠ 0 then
    ([ExtCall.listPackage, ExtCall.outdatedCheck], RunOutcome.errOutdatedFailed)
  else if noPayload env.outdatedStdout env.outdatedStderr then
    ([ExtCall.listPackage, ExtCall.outdatedCheck], RunOutcome.errNoPayload)
  else
    match env.parsed with
    | none => ([ExtCall.listPackage, ExtCall.outdatedCheck], RunOutcome.errParseFailed)
    | some data =>
      let outdatedPackages := parseOutdatedPackages env.lc data
      if outdatedPackages.length = 0 then
        ([ExtCall.listPackage, ExtCall.outdatedCheck], RunOutcome.infoNoOutdated)
      else
        match env.selection with
        | none => ([ExtCall.listPackage, ExtCall.outdatedCheck], RunOutcome.infoNothingSelected)
        | some selections =>
          if selections.length = 0 then
            ([ExtCall.listPackage, ExtCall.outdatedCheck], RunOutcome.infoNothingSelected)
          else
            let ensure := ensureDotnetOutdated env.probeCode env.installCode
            let calls := ExtCall.listPackage :: ExtCall.outdatedCheck :: ensure.1
            if ¬ ensure.2 then (calls, RunOutcome.errInstallFailed)
            else if env.upgradeCode ≠ 0 then
              (calls ++ [ExtCall.upgrade selections], RunOutcome.errUpgradeFailed)
            else (calls ++ [ExtCall.upgrade selections], RunOutcome.success)

/-- One step of normalization viewed on the flattened entry stream:
an entry is a package value together with the project and framework
labels it was encountered under. -/
def stepEntry (m : List OutdatedPackage) (e : String × String × JValue) :
    List OutdatedPackage :=
  processPkg m e.1 e.2.1 e.2.2

/-- The flattened traversal order of the triple nested loop: every
package value of the document paired with its project and framework
labels, in visit order. -/
def entryList (data : JValue) : List (String × String × JValue) :=
  (projectsOf data).flatMap fun project =>
    (frameworksOf project).flatMap fun fw =>
      (topLevelOf fw).map fun pkg => (projectLabel project, frameworkLabel fw, pkg)

/-- Some candidate with the given id is present. -/
def hasId (m : List OutdatedPackage) (i : String) : Prop :=
  ∃ c ∈ m, c.id = i

/-- Version `v` belongs to the resolved set of the candidate with id `i`. -/
def memResolved (m : List OutdatedPackage) (i v : String) : Prop :=
  ∃ c ∈ m, c.id = i ∧ v ∈ c.resolvedVersions

/-- Version `v` belongs to the latest set of the candidate with id `i`. -/
def memLatest (m : List OutdatedPackage) (i v : String) : Prop :=
  ∃ c ∈ m, c.id = i ∧ v ∈ c.latestVersions

/-- Context `s` belongs to the context set of the candidate with id `i`. -/
def memContext (m : List OutdatedPackage) (i s : String) : Prop :=
  ∃ c ∈ m, c.id = i ∧ s ∈ c.contexts

/-- The well-formedness carried by every candidate the normalizer
builds: version entries are non-empty strings and at least one context
was recorded. -/
def goodPkg (c : OutdatedPackage) : Prop :=
  (∀ v ∈ c.resolvedVersions, v ≠ "") ∧ (∀ v ∈ c.latestVersions, v ≠ "") ∧ c.contexts ≠ []

theorem processFramework_eq_foldl (m : List OutdatedPackage) (pn : String) (fw : JValue) :
    processFramework m pn fw =
      ((topLevelOf fw).map fun pkg => (pn, frameworkLabel fw, pkg)).foldl stepEntry m := by
  unfold processFramework
  rw [List.foldl_map]
  rfl

theorem foldl_frameworks_eq (fws : List JValue) (pn : String) (m : List OutdatedPackage) :
    fws.foldl (fun acc fw => processFramework acc pn fw) m =
      (fws.flatMap fun fw =>
        (topLevelOf fw).map fun pkg => (pn, frameworkLabel fw, pkg)).foldl stepEntry m := by
  induction fws generalizing m with
  | nil => rfl
  | cons fw fws ih =>
    simp only [List.foldl_cons, List.flatMap_cons, List.foldl_append]
    rw [processFramework_eq_foldl, ih]

theorem processProject_eq_foldl (m : List OutdatedPackage) (project : JValue) :
    processProject m project =
      ((frameworksOf project).flatMap fun fw =>
        (topLevelOf fw).map fun pkg =>
          (projectLabel project, frameworkLabel fw, pkg)).foldl stepEntry m := by
  unfold processProject
  exact foldl_frameworks_eq (frameworksOf project) (projectLabel project) m

/-- The nested project/framework/package loops are the fold of
`stepEntry` over the flattened entry stream. -/
theorem foldl_projects_eq_entryList (data : JValue) (m : List OutdatedPackage) :
    (projectsOf data).foldl processProject m = (entryList data).foldl stepEntry m := by
  unfold entryList
  induction projectsOf data generalizing m with
  | nil => rfl
  | cons p ps ih =>
    simp only [List.foldl_cons, List.flatMap_cons, List.foldl_append]
    rw [processProject_eq_foldl, ih]

theorem mem_addToSet (s : List String) (x v : String) :
    v ∈ addToSet s x ↔ v ∈ s ∨ v = x := by
  by_cases h : x ∈ s
  · simp only [addToSet, if_pos h]
    constructor
    · exact Or.inl
    · rintro (hv | rfl)
      · exact hv
      · exact h
  · simp [addToSet, if_neg h]

theorem addToSet_ne_nil (s : List String) (x : String) : addToSet s x ≠ [] := by
  by_cases h : x ∈ s
  · simp only [addToSet, if_pos h]
    rintro rfl
    simp at h
  · simp [addToSet, if_neg h]

theorem mem_addTruthy (s : List String) (o : Option String) (v : String) :
    v ∈ addTruthy s o ↔ v ∈ s ∨ (o = some v ∧ v ≠ "") := by
  cases o with
  | none => simp [addTruthy]
  | some w =>
    by_cases hw : w = ""
    · subst hw
      simp only [addTruthy, if_pos rfl, Option.some.injEq]
      constructor
      · exact Or.inl
      · rintro (hv | ⟨rfl, hne⟩)
        · exact hv
        · cases hne rfl
    · simp only [addTruthy, if_neg hw, mem_addToSet, Option.some.injEq]
      constructor
      · rintro (hv | rfl)
        · exact Or.inl hv
        · exact Or.inr ⟨rfl, hw⟩
      · rintro (hv | ⟨rfl, hne⟩)
        · exact Or.inl hv
        · exact Or.inr rfl

theorem hasId_updateMap (m : List OutdatedPackage) (j : String) (r l : Option String)
    (c : String) (i : String) :
    hasId (updateMap m j r l c) i ↔ hasId m i ∨ j = i := by
  induction m with
  | nil => simp [hasId, updateMap]
  | cons p ps ih =>
    by_cases hpj : p.id = j
    · simp only [updateMap, if_pos hpj, hasId, List.mem_cons]
      subst hpj
      constructor
      · rintro ⟨q, hq | hq, hqi⟩
        · subst hq
          exact Or.inr hqi
        · exact Or.inl ⟨q, Or.inr hq, hqi⟩
      · rintro (⟨q, hq | hq, hqi⟩ | hqi)
        · subst hq
          exact ⟨_, Or.inl rfl, hqi⟩
        · exact ⟨q, Or.inr hq, hqi⟩
        · exact ⟨_, Or.inl rfl, hqi⟩
    · simp only [updateMap, if_neg hpj, hasId, List.mem_cons] at *
      constructor
      · rintro ⟨q, hq | hq, hqi⟩
        · exact Or.inl ⟨q, Or.inl hq, hqi⟩
        · rcases (ih).1 ⟨q, hq, hqi⟩ with h | h
          · rcases h with ⟨q2, hq2, hq2i⟩
            exact Or.inl ⟨q2, Or.inr hq2, hq2i⟩
          · exact Or.inr h
      · rintro (⟨q, hq | hq, hqi⟩ | hji)
        · exact ⟨q, Or.inl hq, hqi⟩
        · rcases (ih).2 (Or.inl ⟨q, hq, hqi⟩) with ⟨q2, hq2, hq2i⟩
          exact ⟨q2, Or.inr hq2, hq2i⟩
        · rcases (ih).2 (Or.inr hji) with ⟨q2, hq2, hq2i⟩
          exact ⟨q2, Or.inr hq2, hq2i⟩

theorem memResolved_nil (i v : String) : memResolved [] i v ↔ False := by
  simp [memResolved]

theorem memResolved_cons (q : OutdatedPackage) (qs : List OutdatedPackage) (i v : String) :
    memResolved (q :: qs) i v ↔ (q.id = i ∧ v ∈ q.resolvedVersions) ∨ memResolved qs i v := by
  simp [memResolved, List.mem_cons, exists_eq_or_imp]

theorem memLatest_nil (i v : String) : memLatest [] i v ↔ False := by
  simp [memLatest]

theorem memLatest_cons (q : OutdatedPackage) (qs : List OutdatedPackage) (i v : String) :
    memLatest (q :: qs) i v ↔ (q.id = i ∧ v ∈ q.latestVersions) ∨ memLatest qs i v := by
  simp [memLatest, List.mem_cons, exists_eq_or_imp]

theorem memContext_nil (i s : String) : memContext [] i s ↔ False := by
  simp [memContext]

theorem memContext_cons (q : OutdatedPackage) (qs : List OutdatedPackage) (i s : String) :
    memContext (q :: qs) i s ↔ (q.id = i ∧ s ∈ q.contexts) ∨ memContext qs i s := by
  simp [memContext, List.mem_cons, exists_eq_or_imp]

theorem memResolved_updateMap (m : List OutdatedPackage) (j : String) (r l : Option String)
    (c : String) (i v : String) :
    memResolved (updateMap m j r l c) i v ↔
      memResolved m i v ∨ (j = i ∧ r = some v ∧ v ≠ "") := by
  induction m with
  | nil =>
    rw [show updateMap [] j r l c =
      [⟨j, addTruthy [] r, addTruthy [] l, addToSet [] c⟩] from rfl]
    rw [memResolved_cons, memResolved_nil]
    dsimp only
    rw [mem_addTruthy]
    simp only [List.not_mem_nil, false_or]
    tauto
  | cons p ps ih =>
    by_cases hpj : p.id = j
    · simp only [updateMap]
      rw [if_pos hpj]
      rw [memResolved_cons, memResolved_cons]
      dsimp only
      rw [mem_addTruthy]
      subst hpj
      tauto
    · simp only [updateMap]
      rw [if_neg hpj]
      rw [memResolved_cons, memResolved_cons, ih]
      tauto

theorem memLatest_updateMap (m : List OutdatedPackage) (j : String) (r l : Option String)
    (c : String) (i v : String) :
    memLatest (updateMap m j r l c) i v ↔
      memLatest m i v ∨ (j = i ∧ l = some v ∧ v ≠ "") := by
  induction m with
  | nil =>
    rw [show updateMap [] j r l c =
      [⟨j, addTruthy [] r, addTruthy [] l, addToSet [] c⟩] from rfl]
    rw [memLatest_cons, memLatest_nil]
    dsimp only
    rw [mem_addTruthy]
    simp only [List.not_mem_nil, false_or]
    tauto
  | cons p ps ih =>
    by_cases hpj : p.id = j
    · simp only [updateMap]
      rw [if_pos hpj]
      rw [memLatest_cons, memLatest_cons]
      dsimp only
      rw [mem_addTruthy]
      subst hpj
      tauto
    · simp only [updateMap]
      rw [if_neg hpj]
      rw [memLatest_cons, memLatest_cons, ih]
      tauto

theorem memContext_updateMap (m : List OutdatedPackage) (j : String) (r l : Option String)
    (c : String) (i s : String) :
    memContext (updateMap m j r l c) i s ↔
      memContext m i s ∨ (j = i ∧ c = s) := by
  induction m with
  | nil =>
    rw [show updateMap [] j r l c =
      [⟨j, addTruthy [] r, addTruthy [] l, addToSet [] c⟩] from rfl]
    rw [memContext_cons, memContext_nil]
    dsimp only
    rw [mem_addToSet]
    simp only [List.not_mem_nil, false_or]
    tauto
  | cons p ps ih =>
    by_cases hpj : p.id = j
    · simp only [updateMap]
      rw [if_pos hpj]
      rw [memContext_cons, memContext_cons]
      dsimp only
      rw [mem_addToSet]
      subst hpj
      tauto
    · simp only [updateMap]
      rw [if_neg hpj]
      rw [memContext_cons, memContext_cons, ih]
      tauto

theorem hasId_stepEntry (m : List OutdatedPackage) (e : String × String × JValue)
    (i : String) :
    hasId (stepEntry m e) i ↔ hasId m i ∨ getId e.2.2 = some i := by
  unfold stepEntry processPkg
  cases h : getId e.2.2 with
  | none => simp
  | some j => rw [hasId_updateMap]; simp

theorem memResolved_stepEntry (m : List OutdatedPackage) (e : String × String × JValue)
    (i v : String) :
    memResolved (stepEntry m e) i v ↔
      memResolved m i v ∨
        (getId e.2.2 = some i ∧ getStr e.2.2 "resolvedVersion" = some v ∧ v ≠ "") := by
  unfold stepEntry processPkg
  cases h : getId e.2.2 with
  | none => simp
  | some j => rw [memResolved_updateMap]; simp

theorem memLatest_stepEntry (m : List OutdatedPackage) (e : String × String × JValue)
    (i v : String) :
    memLatest (stepEntry m e) i v ↔
      memLatest m i v ∨
        (getId e.2.2 = some i ∧ getStr e.2.2 "latestVersion" = some v ∧ v ≠ "") := by
  unfold stepEntry processPkg
  cases h : getId e.2.2 with
  | none => simp
  | some j => rw [memLatest_updateMap]; simp

theorem memContext_stepEntry (m : List OutdatedPackage) (e : String × String × JValue)
    (i s : String) :
    memContext (stepEntry m e) i s ↔
      memContext m i s ∨ (getId e.2.2 = some i ∧ mkContext e.1 e.2.1 = s) := by
  unfold stepEntry processPkg
  cases h : getId e.2.2 with
  | none => simp
  | some j => rw [memContext_updateMap]; simp

theorem hasId_foldl (es : List (String × String × JValue)) (m : List OutdatedPackage)
    (i : String) :
    hasId (es.foldl stepEntry m) i ↔ hasId m i ∨ ∃ e ∈ es, getId e.2.2 = some i := by
  induction es generalizing m with
  | nil => simp
  | cons e es ih =>
    rw [List.foldl_cons, ih, hasId_stepEntry]
    simp only [List.mem_cons, exists_eq_or_imp]
    tauto

theorem memResolved_foldl (es : List (String × String × JValue)) (m : List OutdatedPackage)
    (i v : String) :
    memResolved (es.foldl stepEntry m) i v ↔
      memResolved m i v ∨
        ∃ e ∈ es, getId e.2.2 = some i ∧ getStr e.2.2 "resolvedVersion" = some v ∧ v ≠ "" := by
  induction es generalizing m with
  | nil => simp
  | cons e es ih =>
    rw [List.foldl_cons, ih, memResolved_stepEntry]
    simp only [List.mem_cons, exists_eq_or_imp]
    tauto

theorem memLatest_foldl (es : List (String × String × JValue)) (m : List OutdatedPackage)
    (i v : String) :
    memLatest (es.foldl stepEntry m) i v ↔
      memLatest m i v ∨
        ∃ e ∈ es, getId e.2.2 = some i ∧ getStr e.2.2 "latestVersion" = some v ∧ v ≠ "" := by
  induction es generalizing m with
  | nil => simp
  | cons e es ih =>
    rw [List.foldl_cons, ih, memLatest_stepEntry]
    simp only [List.mem_cons, exists_eq_or_imp]
    tauto

theorem memContext_foldl (es : List (String × String × JValue)) (m : List OutdatedPackage)
    (i s : String) :
    memContext (es.foldl stepEntry m) i s ↔
      memContext m i s ∨ ∃ e ∈ es, getId e.2.2 = some i ∧ mkContext e.1 e.2.1 = s := by
  induction es generalizing m with
  | nil => simp
  | cons e es ih =>
    rw [List.foldl_cons, ih, memContext_stepEntry]
    simp only [List.mem_cons, exists_eq_or_imp]
    tauto

theorem ids_updateMap (m : List OutdatedPackage) (j : String) (r l : Option String)
    (c : String) :
    (updateMap m j r l c).map OutdatedPackage.id =
      if j ∈ m.map OutdatedPackage.id then m.map OutdatedPackage.id
      else m.map OutdatedPackage.id ++ [j] := by
  induction m with
  | nil => simp [updateMap]
  | cons p ps ih =>
    by_cases hpj : p.id = j
    · simp only [updateMap]
      rw [if_pos hpj]
      subst hpj
      simp [List.mem_cons]
    · simp only [updateMap]
      rw [if_neg hpj]
      simp only [List.map_cons, ih, List.mem_cons]
      have hne : ¬ j = p.id := fun h => hpj h.symm
      by_cases hj : j ∈ ps.map OutdatedPackage.id
      · rw [if_pos hj, if_pos (Or.inr hj)]
      · rw [if_neg hj, if_neg (by rintro (h | h); exact hne h; exact hj h)]
        exact (List.cons_append _ _ _).symm

theorem nodup_ids_updateMap (m : List OutdatedPackage) (j : String) (r l : Option String)
    (c : String) (hm : (m.map OutdatedPackage.id).Nodup) :
    ((updateMap m j r l c).map OutdatedPackage.id).Nodup := by
  rw [ids_updateMap]
  by_cases hj : j ∈ m.map OutdatedPackage.id
  · rwa [if_pos hj]
  · rw [if_neg hj]
    simp [List.nodup_append, hm, hj]

theorem nodup_ids_stepEntry (m : List OutdatedPackage) (e : String × String × JValue)
    (hm : (m.map OutdatedPackage.id).Nodup) :
    ((stepEntry m e).map OutdatedPackage.id).Nodup := by
  unfold stepEntry processPkg
  cases getId e.2.2 with
  | none => exact hm
  | some j => exact nodup_ids_updateMap m j _ _ _ hm

theorem nodup_ids_foldl (es : List (String × String × JValue)) (m : List OutdatedPackage)
    (hm : (m.map OutdatedPackage.id).Nodup) :
    (((es.foldl stepEntry m)).map OutdatedPackage.id).Nodup := by
  induction es generalizing m with
  | nil => exact hm
  | cons e es ih => exact ih _ (nodup_ids_stepEntry m e hm)

theorem goodPkg_addTruthy (s : List String) (o : Option String)
    (hs : ∀ v ∈ s, v ≠ "") : ∀ v ∈ addTruthy s o, v ≠ "" := by
  intro v hv
  rcases (mem_addTruthy s o v).1 hv with h | ⟨_, hne⟩
  · exact hs v h
  · exact hne

theorem goodPkg_updateMap (m : List OutdatedPackage) (j : String) (r l : Option String)
    (c : String) (hm : ∀ p ∈ m, goodPkg p) :
    ∀ p ∈ updateMap m j r l c, goodPkg p := by
  induction m with
  | nil =>
    intro p hp
    rw [show updateMap [] j r l c =
      [⟨j, addTruthy [] r, addTruthy [] l, addToSet [] c⟩] from rfl,
      List.mem_singleton] at hp
    subst hp
    refine ⟨goodPkg_addTruthy _ _ (by simp), goodPkg_addTruthy _ _ (by simp), ?_⟩
    exact addToSet_ne_nil [] c
  | cons q qs ih =>
    intro p hp
    by_cases hqj : q.id = j
    · simp only [updateMap] at hp
      rw [if_pos hqj, List.mem_cons] at hp
      rcases hp with rfl | hp
      · obtain ⟨h1, h2, _⟩ := hm q (List.mem_cons_self q qs)
        exact ⟨goodPkg_addTruthy _ _ h1, goodPkg_addTruthy _ _ h2, addToSet_ne_nil _ _⟩
      · exact hm p (List.mem_cons_of_mem _ hp)
    · simp only [updateMap] at hp
      rw [if_neg hqj, List.mem_cons] at hp
      rcases hp with rfl | hp
      · exact hm p (List.mem_cons_self p qs)
      · exact ih (fun x hx => hm x (List.mem_cons_of_mem _ hx)) p hp

theorem goodPkg_stepEntry (m : List OutdatedPackage) (e : String × String × JValue)
    (hm : ∀ p ∈ m, goodPkg p) : ∀ p ∈ stepEntry m e, goodPkg p := by
  unfold stepEntry processPkg
  cases getId e.2.2 with
  | none => exact hm
  | some j => exact goodPkg_updateMap m j _ _ _ hm

theorem goodPkg_foldl (es : List (String × String × JValue)) (m : List OutdatedPackage)
    (hm : ∀ p ∈ m, goodPkg p) : ∀ p ∈ es.foldl stepEntry m, goodPkg p := by
  induction es generalizing m with
  | nil => exact hm
  | cons e es ih => exact ih _ (goodPkg_stepEntry m e hm)

theorem insertSorted_perm (lc : String → String → Int) (c : OutdatedPackage)
    (l : List OutdatedPackage) : (insertSorted lc c l).Perm (c :: l) := by
  induction l with
  | nil => exact List.Perm.refl _
  | cons d ds ih =>
    by_cases h : lc c.id d.id ≤ 0
    · simp only [insertSorted, if_pos h]
      exact List.Perm.refl _
    · simp only [insertSorted, if_neg h]
      exact (ih.cons d).trans (List.Perm.swap c d ds)

theorem sortCandidates_perm (lc : String → String → Int) (l : List OutdatedPackage) :
    (sortCandidates lc l).Perm l := by
  induction l with
  | nil => exact List.Perm.refl _
  | cons x xs ih =>
    exact (insertSorted_perm lc x (sortCandidates lc xs)).trans (ih.cons x)

theorem pairwise_insertSorted (lc : String → String → Int)
    (hTot : ∀ a b, lc a b ≤ 0 ∨ lc b a ≤ 0)
    (hTrans : ∀ a b c, lc a b ≤ 0 → lc b c ≤ 0 → lc a c ≤ 0)
    (c : OutdatedPackage) (l : List OutdatedPackage)
    (hl : l.Pairwise (fun a b => lc a.id b.id ≤ 0)) :
    (insertSorted lc c l).Pairwise (fun a b => lc a.id b.id ≤ 0) := by
  induction l with
  | nil => simp [insertSorted]
  | cons d ds ih =>
    rcases List.pairwise_cons.1 hl with ⟨hd, hds⟩
    by_cases h : lc c.id d.id ≤ 0
    · simp only [insertSorted, if_pos h]
      refine List.pairwise_cons.2 ⟨?_, hl⟩
      intro x hx
      rcases List.mem_cons.1 hx with rfl | hx
      · exact h
      · exact hTrans c.id d.id x.id h (hd x hx)
    · simp only [insertSorted, if_neg h]
      refine List.pairwise_cons.2 ⟨?_, ih hds⟩
      intro x hx
      have hx2 : x ∈ c :: ds := (insertSorted_perm lc c ds).mem_iff.1 hx
      rcases List.mem_cons.1 hx2 with rfl | hx2
      · rcases hTot x.id d.id with h2 | h2
        · exact absurd h2 h
        · exact h2
      · exact hd x hx2

theorem pairwise_sortCandidates (lc : String → String → Int)
    (hTot : ∀ a b, lc a b ≤ 0 ∨ lc b a ≤ 0)
    (hTrans : ∀ a b c, lc a b ≤ 0 → lc b c ≤ 0 → lc a c ≤ 0)
    (l : List OutdatedPackage) :
    (sortCandidates lc l).Pairwise (fun a b => lc a.id b.id ≤ 0) := by
  induction l with
  | nil => simp [sortCandidates]
  | cons x xs ih => exact pairwise_insertSorted lc hTot hTrans x _ ih

theorem hasId_perm {m1 m2 : List OutdatedPackage} (h : m1.Perm m2) (i : String) :
    hasId m1 i ↔ hasId m2 i := by
  unfold hasId
  constructor
  · rintro ⟨c, hc, hci⟩
    exact ⟨c, h.mem_iff.1 hc, hci⟩
  · rintro ⟨c, hc, hci⟩
    exact ⟨c, h.mem_iff.2 hc, hci⟩

theorem memResolved_perm {m1 m2 : List OutdatedPackage} (h : m1.Perm m2) (i v : String) :
    memResolved m1 i v ↔ memResolved m2 i v := by
  unfold memResolved
  constructor
  · rintro ⟨c, hc, hci⟩
    exact ⟨c, h.mem_iff.1 hc, hci⟩
  · rintro ⟨c, hc, hci⟩
    exact ⟨c, h.mem_iff.2 hc, hci⟩

theorem memLatest_perm {m1 m2 : List OutdatedPackage} (h : m1.Perm m2) (i v : String) :
    memLatest m1 i v ↔ memLatest m2 i v := by
  unfold memLatest
  constructor
  · rintro ⟨c, hc, hci⟩
    exact ⟨c, h.mem_iff.1 hc, hci⟩
  · rintro ⟨c, hc, hci⟩
    exact ⟨c, h.mem_iff.2 hc, hci⟩

theorem memContext_perm {m1 m2 : List OutdatedPackage} (h : m1.Perm m2) (i s : String) :
    memContext m1 i s ↔ memContext m2 i s := by
  unfold memContext
  constructor
  · rintro ⟨c, hc, hci⟩
    exact ⟨c, h.mem_iff.1 hc, hci⟩
  · rintro ⟨c, hc, hci⟩
    exact ⟨c, h.mem_iff.2 hc, hci⟩

theorem hasId_parse (lc : String → String → Int) (d : JValue) (i : String) :
    hasId (parseOutdatedPackages lc d) i ↔ ∃ e ∈ entryList d, getId e.2.2 = some i := by
  unfold parseOutdatedPackages
  rw [hasId_perm (sortCandidates_perm lc _), foldl_projects_eq_entryList, hasId_foldl]
  simp [hasId]

theorem memResolved_parse (lc : String → String → Int) (d : JValue) (i v : String) :
    memResolved (parseOutdatedPackages lc d) i v ↔
      ∃ e ∈ entryList d,
        getId e.2.2 = some i ∧ getStr e.2.2 "resolvedVersion" = some v ∧ v ≠ "" := by
  unfold parseOutdatedPackages
  rw [memResolved_perm (sortCandidates_perm lc _), foldl_projects_eq_entryList,
    memResolved_foldl]
  simp [memResolved]

theorem memLatest_parse (lc : String → String → Int) (d : JValue) (i v : String) :
    memLatest (parseOutdatedPackages lc d) i v ↔
      ∃ e ∈ entryList d,
        getId e.2.2 = some i ∧ getStr e.2.2 "latestVersion" = some v ∧ v ≠ "" := by
  unfold parseOutdatedPackages
  rw [memLatest_perm (sortCandidates_perm lc _), foldl_projects_eq_entryList,
    memLatest_foldl]
  simp [memLatest]

theorem memContext_parse (lc : String → String → Int) (d : JValue) (i s : String) :
    memContext (parseOutdatedPackages lc d) i s ↔
      ∃ e ∈ entryList d, getId e.2.2 = some i ∧ mkContext e.1 e.2.1 = s := by
  unfold parseOutdatedPackages
  rw [memContext_perm (sortCandidates_perm lc _), foldl_projects_eq_entryList,
    memContext_foldl]
  simp [memContext]

theorem nodup_ids_parse (lc : String → String → Int) (d : JValue) :
    ((parseOutdatedPackages lc d).map OutdatedPackage.id).Nodup := by
  unfold parseOutdatedPackages
  refine ((sortCandidates_perm lc _).map OutdatedPackage.id).nodup_iff.2 ?_
  rw [foldl_projects_eq_entryList]
  exact nodup_ids_foldl _ [] (by simp)

theorem goodPkg_parse (lc : String → String → Int) (d : JValue) :
    ∀ c ∈ parseOutdatedPackages lc d, goodPkg c := by
  intro c hc
  unfold parseOutdatedPackages at hc
  have hmem := (sortCandidates_perm lc _).subset hc
  rw [foldl_projects_eq_entryList] at hmem
  exact goodPkg_foldl _ [] (by simp) c hmem

/-- A concrete consistent comparator, standing in for `localeCompare`
when a witness needs one: ordinary lexicographic string order. -/
def lcDefault : String → String → Int := fun a b =>
  if a < b then -1 else if b < a then 1 else 0

theorem lcDefault_le (a b : String) : lcDefault a b ≤ 0 ↔ a ≤ b := by
  unfold lcDefault
  rcases lt_trichotomy a b with h | h | h
  · rw [if_pos h]
    simp [le_of_lt h]
  · subst h
    simp
  · rw [if_neg (not_lt.2 h.le), if_pos h]
    simp [not_le.2 h]

theorem lcDefault_total (a b : String) : lcDefault a b ≤ 0 ∨ lcDefault b a ≤ 0 := by
  rcases le_total a b with h | h
  · exact Or.inl ((lcDefault_le a b).2 h)
  · exact Or.inr ((lcDefault_le b a).2 h)

theorem lcDefault_trans (a b c : String) (hab : lcDefault a b ≤ 0)
    (hbc : lcDefault b c ≤ 0) : lcDefault a c ≤ 0 :=
  (lcDefault_le a c).2 (le_trans ((lcDefault_le a b).1 hab) ((lcDefault_le b c).1 hbc))

/-- Sample payload: one project, one framework, one package. -/
def pkgNJ : JValue := JValue.obj
  [("id", JValue.str "Newtonsoft.Json"), ("resolvedVersion", JValue.str "13.0.1"),
   ("latestVersion", JValue.str "13.0.3")]

/-- Sample document wrapping `pkgNJ` under project "App" and framework
"net8.0". -/
def docSimple : JValue := JValue.obj
  [("projects", JValue.arr [JValue.obj
    [("name", JValue.str "App"),
     ("frameworks", JValue.arr [JValue.obj
       [("name", JValue.str "net8.0"),
        ("topLevelPackages", JValue.arr [pkgNJ])]])]])]

theorem parse_docSimple_eval : parseOutdatedPackages lcDefault docSimple =
    [⟨"Newtonsoft.Json", ["13.0.1"], ["13.0.3"], ["App (net8.0)"]⟩] := by decide

theorem firstIdx_get (c : Char) (cs : List Char) (i : Nat)
    (h : firstIdx c cs = some i) : i < cs.length ∧ cs.get? i = some c := by
  induction cs generalizing i with
  | nil => simp [firstIdx] at h
  | cons x xs ih =>
    by_cases hx : x = c
    · rw [firstIdx, if_pos hx] at h
      cases h
      subst hx
      simp
    · rw [firstIdx, if_neg hx] at h
      rcases Option.map_eq_some'.1 h with ⟨j, hj, rfl⟩
      rcases ih j hj with ⟨h1, h2⟩
      exact ⟨Nat.succ_lt_succ h1, by simpa using h2⟩

theorem lastIdx_get (c : Char) (cs : List Char) (j : Nat)
    (h : lastIdx c cs = some j) : j < cs.length ∧ cs.get? j = some c := by
  induction cs generalizing j with
  | nil => simp [lastIdx] at h
  | cons x xs ih =>
    rw [lastIdx] at h
    cases hxs : lastIdx c xs with
    | some k =>
      rw [hxs] at h
      cases h
      rcases ih k hxs with ⟨h1, h2⟩
      exact ⟨Nat.succ_lt_succ h1, by simpa using h2⟩
    | none =>
      rw [hxs] at h
      by_cases hx : x = c
      · rw [if_pos hx] at h
        cases h
        subst hx
        simp
      · rw [if_neg hx] at h
        cases h

theorem firstIdx_head (c : Char) (cs : List Char) (h : cs.get? 0 = some c) :
    firstIdx c cs = some 0 := by
  cases cs with
  | nil => simp at h
  | cons x xs =>
    simp only [List.get?_cons_zero, Option.some.injEq] at h
    rw [firstIdx, if_pos h]

theorem lastIdx_last (c : Char) (cs : List Char)
    (h : cs.get? (cs.length - 1) = some c) (hne : cs ≠ []) :
    lastIdx c cs = some (cs.length - 1) := by
  induction cs with
  | nil => cases hne rfl
  | cons x xs ih =>
    by_cases hxs : xs = []
    · subst hxs
      have hx : x = c := by simpa using h
      simp [lastIdx, hx]
    · have hlen : 0 < xs.length := List.length_pos.2 hxs
      have hlx : (x :: xs).length - 1 = xs.length := by simp
      rw [hlx] at h ⊢
      have hh : xs.get? (xs.length - 1) = some c := by
        rw [show xs.length = (xs.length - 1) + 1 from (Nat.succ_pred_eq_of_pos hlen).symm] at h
        simpa using h
      rw [lastIdx, ih hh hxs]
      simp only [Option.some.injEq]
      omega

theorem firstIdx_eq_none (c : Char) (cs : List Char) :
    firstIdx c cs = none ↔ c ∉ cs := by
  induction cs with
  | nil => simp [firstIdx]
  | cons x xs ih =>
    by_cases hx : x = c
    · rw [firstIdx, if_pos hx]
      subst hx
      simp
    · rw [firstIdx, if_neg hx]
      rw [Option.map_eq_none']
      rw [ih]
      simp only [List.mem_cons]
      constructor
      · rintro hn (h | h)
        · exact hx h.symm
        · exact hn h
      · intro hn h
        exact hn (Or.inr h)

theorem lastIdx_eq_none (c : Char) (cs : List Char) :
    lastIdx c cs = none ↔ c ∉ cs := by
  induction cs with
  | nil => simp [lastIdx]
  | cons x xs ih =>
    rw [lastIdx]
    cases hxs : lastIdx c xs with
    | some k =>
      have hmem : c ∈ xs := by
        by_contra hc
        rw [← ih, hxs] at hc
        exact Option.noConfusion hc
      simp [hmem]
    | none =>
      have hnm : c ∉ xs := ih.1 hxs
      by_cases hx : x = c
      · simp [hx]
      · simp [hx, List.mem_cons, hnm, Ne.symm hx]

theorem slice_props (cs : List Char) (fb lb : Nat)
    (hf : firstIdx '{' cs = some fb) (hl : lastIdx '}' cs = some lb) (hlt : fb < lb) :
    ((cs.drop fb).take (lb + 1 - fb)).length = lb + 1 - fb ∧
    ((cs.drop fb).take (lb + 1 - fb)).get? 0 = some '{' ∧
    ((cs.drop fb).take (lb + 1 - fb)).get? (lb - fb) = some '}' := by
  obtain ⟨hfl, hfg⟩ := firstIdx_get _ _ _ hf
  obtain ⟨hll, hlg⟩ := lastIdx_get _ _ _ hl
  refine ⟨?_, ?_, ?_⟩
  · rw [List.length_take, List.length_drop]
    omega
  · rw [List.get?_take (by omega), List.get?_drop]
    simpa using hfg
  · rw [List.get?_take (by omega), List.get?_drop]
    rw [show fb + (lb - fb) = lb from by omega]
    exact hlg

/-- C8: payload extraction is idempotent: re-extracting an extracted
payload changes nothing. -/
theorem extractJsonPayload_idem (s : String) :
    extractJsonPayload (extractJsonPayload s) = extractJsonPayload s := by
  by_cases hc : ∃ fb lb,
      firstIdx '{' s.data = some fb ∧ lastIdx '}' s.data = some lb ∧ fb < lb
  · obtain ⟨fb, lb, hf, hl, hlt⟩ := hc
    have h1 : extractJsonPayload s = String.mk ((s.data.drop fb).take (lb + 1 - fb)) := by
      unfold extractJsonPayload
      simp only [hf, hl]
      rw [if_neg (by omega)]
    obtain ⟨hrl, hr0, hrlast⟩ := slice_props s.data fb lb hf hl hlt
    set r := (s.data.drop fb).take (lb + 1 - fb) with hr
    have h2 : extractJsonPayload (String.mk r) = String.mk r := by
      have hfr : firstIdx '{' (String.mk r).data = some 0 := firstIdx_head _ _ hr0
      have hlr : lastIdx '}' (String.mk r).data = some (r.length - 1) := by
        apply lastIdx_last
        · rw [show r.length - 1 = lb - fb from by omega]
          exact hrlast
        · intro h0
          have h0r : r = [] := h0
          rw [h0r] at hrl
          simp at hrl
          omega
      unfold extractJsonPayload
      simp only [hfr, hlr]
      rw [if_neg (by omega)]
      congr 1
      rw [List.drop_zero, show r.length - 1 + 1 - 0 = r.length from by omega]
      exact List.take_length r
    rw [h1]
    exact h2
  · have hself : extractJsonPayload s = s := by
      unfold extractJsonPayload
      cases hf : firstIdx '{' s.data with
      | none => rfl
      | some fb =>
        cases hl : lastIdx '}' s.data with
        | none => rfl
        | some lb =>
          have hle : lb ≤ fb := by
            push_neg at hc
            exact hc fb lb hf hl
          dsimp only
          rw [if_pos hle]
    rw [hself]
    exact hself

/-- C9: extraction returns the input unchanged when there is no opening
brace, no closing brace, or the last closing brace does not strictly
follow the first opening brace; otherwise it returns the inclusive
substring from the first opening brace to the last closing brace. -/
theorem extractJsonPayload_spec (s : String) :
    (('{' ∉ s.data ∨ '}' ∉ s.data ∨
        ∀ fb lb, firstIdx '{' s.data = some fb → lastIdx '}' s.data = some lb →
          lb ≤ fb) →
      extractJsonPayload s = s) ∧
    (∀ fb lb, firstIdx '{' s.data = some fb → lastIdx '}' s.data = some lb → fb < lb →
      extractJsonPayload s = String.mk ((s.data.drop fb).take (lb + 1 - fb))) := by
  constructor
  · intro h
    unfold extractJsonPayload
    cases hf : firstIdx '{' s.data with
    | none => rfl
    | some fb =>
      cases hl : lastIdx '}' s.data with
      | none => rfl
      | some lb =>
        rcases h with h | h | h
        · rw [← firstIdx_eq_none] at h
          rw [hf] at h
          exact Option.noConfusion h
        · rw [← lastIdx_eq_none] at h
          rw [hl] at h
          exact Option.noConfusion h
        · dsimp only
          rw [if_pos (h fb lb hf hl)]
  · intro fb lb hf hl hlt
    unfold extractJsonPayload
    simp only [hf, hl]
    rw [if_neg (by omega)]

/-- Witness for C9 at concrete inputs: brace-free text is returned
unchanged and noisy text is sliced to the brace span. -/
theorem extractJsonPayload_spec_witness :
    extractJsonPayload "no braces" = "no braces" ∧
    extractJsonPayload "x{a}y" = "{a}" :=
  ⟨(extractJsonPayload_spec "no braces").1 (Or.inl (by decide)),
   (extractJsonPayload_spec "x{a}y").2 1 3 (by decide) (by decide) (by decide)⟩

theorem string_len_zero (s : String) : s.length = 0 ↔ s = "" := by
  rw [String.ext_iff]
  cases s with
  | mk data =>
    show data.length = 0 ↔ data = ("" : String).data
    rw [show ("" : String).data = [] from rfl]
    exact List.length_eq_zero

/-- C4: after a successful outdated check the payload is standard output
when its trimmed form is non-empty, standard error otherwise, and the
no-payload error fires exactly when both captured streams are blank. -/
theorem payload_selection_rule (stdout stderr : String) :
    selectPayload stdout stderr = (if jsTrim stdout = "" then stderr else stdout) ∧
    (noPayload stdout stderr = true ↔ (jsTrim stdout = "" ∧ jsTrim stderr = "")) := by
  constructor
  · by_cases h : jsTrim stdout = "" <;> simp [selectPayload, h, string_len_zero]
  · unfold noPayload
    by_cases h : jsTrim stdout = "" <;>
      simp [selectPayload, h, string_len_zero, beq_iff_eq]

/-- C8 is `extractJsonPayload_idem` above; the remaining claims follow. -/
def projOf (pname : String) (pkg : JValue) : JValue := JValue.obj
  [("name", JValue.str pname),
   ("frameworks", JValue.arr [JValue.obj
     [("name", JValue.str "net8.0"),
      ("topLevelPackages", JValue.arr [pkg])]])]

/-- Package fixture with id "Alpha". -/
def pkgAlpha : JValue := JValue.obj
  [("id", JValue.str "Alpha"), ("resolvedVersion", JValue.str "1.0.0"),
   ("latestVersion", JValue.str "1.2.0")]

/-- Package fixture with id "Beta". -/
def pkgBeta : JValue := JValue.obj
  [("id", JValue.str "Beta"), ("resolvedVersion", JValue.str "2.0.0"),
   ("latestVersion", JValue.str "2.1.0")]

/-- Two projects visited Beta-first. -/
def docPerm1 : JValue := JValue.obj
  [("projects", JValue.arr [projOf "P1" pkgBeta, projOf "P2" pkgAlpha])]

/-- The same two projects visited Alpha-first. -/
def docPerm2 : JValue := JValue.obj
  [("projects", JValue.arr [projOf "P2" pkgAlpha, projOf "P1" pkgBeta])]

/-- C1: for every candidate produced by normalization, the QuickPick
description is the single "resolved -> latest" delta exactly when both
the resolved set and the latest set have exactly one element, and the
literal "multiple versions" in every other case. -/
theorem toItem_description_policy (lc : String → String → Int) (d : JValue)
    (c : OutdatedPackage) (hc : c ∈ parseOutdatedPackages lc d) :
    (toItem c).description =
      if c.resolvedVersions.length = 1 ∧ c.latestVersions.length = 1 then
        c.resolvedVersions.headI ++ " -> " ++ c.latestVersions.headI
      else "multiple versions" := by
  obtain ⟨h1, h2, _⟩ := goodPkg_parse lc d c hc
  by_cases hr : c.resolvedVersions.length = 1
  · by_cases hl : c.latestVersions.length = 1
    · obtain ⟨r, hr1⟩ := List.length_eq_one.1 hr
      obtain ⟨l, hl1⟩ := List.length_eq_one.1 hl
      have hrne : r ≠ "" := h1 r (by rw [hr1]; exact List.mem_singleton_self r)
      have hlne : l ≠ "" := h2 l (by rw [hl1]; exact List.mem_singleton_self l)
      rw [if_pos ⟨hr, hl⟩, hr1, hl1]
      simp [toItem, hr1, hl1, hrne, hlne]
    · rw [if_neg (fun h => hl h.2)]
      obtain ⟨r, hr1⟩ := List.length_eq_one.1 hr
      simp [toItem, hr1, hl]
  · rw [if_neg (fun h => hr h.1)]
    by_cases hl : c.latestVersions.length = 1
    · obtain ⟨l, hl1⟩ := List.length_eq_one.1 hl
      simp [toItem, hr, hl1]
    · simp [toItem, hr, hl]

/-- Witness for C1: the sample candidate renders its version delta. -/
theorem toItem_description_policy_witness :
    (toItem ⟨"Newtonsoft.Json", ["13.0.1"], ["13.0.3"], ["App (net8.0)"]⟩).description =
      "13.0.1 -> 13.0.3" :=
  toItem_description_policy lcDefault docSimple _ (by decide)

/-- Package fixture whose resolvedVersion is present and a string, but
empty. -/
def pkgEmptyRes : JValue := JValue.obj
  [("id", JValue.str "Alpha"), ("resolvedVersion", JValue.str "")]

/-- Document containing only `pkgEmptyRes`. -/
def docEmptyRes : JValue := JValue.obj
  [("projects", JValue.arr [projOf "P" pkgEmptyRes])]

/-- C2 counterexample: the entry for "Alpha" has a usable string id and
a resolvedVersion that is present and is a string (the empty string),
yet the resulting candidate's resolved set is empty — the `if (resolved)`
truthiness guard drops the falsy empty string, so "added whenever the
field is present and is a string" fails as stated. -/
theorem add_rules_counterexample :
    getId pkgEmptyRes = some "Alpha" ∧
    getStr pkgEmptyRes "resolvedVersion" = some "" ∧
    parseOutdatedPackages lcDefault docEmptyRes =
      [⟨"Alpha", [], [], ["P (net8.0)"]⟩] :=
  ⟨by decide, by decide, by decide⟩

/-- C2 (amended): for entries with a usable string id, a version is in
the candidate's resolved (resp. latest) set exactly when some entry for
that id carries it as a present, string-typed and non-empty
resolvedVersion (resp. latestVersion); the composed context string is
accumulated whenever the id is usable, regardless of version presence. -/
theorem add_rules_amended (lc : String → String → Int) (d : JValue) :
    (∀ i v, memResolved (parseOutdatedPackages lc d) i v ↔
      ∃ e ∈ entryList d,
        getId e.2.2 = some i ∧ getStr e.2.2 "resolvedVersion" = some v ∧ v ≠ "") ∧
    (∀ i v, memLatest (parseOutdatedPackages lc d) i v ↔
      ∃ e ∈ entryList d,
        getId e.2.2 = some i ∧ getStr e.2.2 "latestVersion" = some v ∧ v ≠ "") ∧
    (∀ i s, memContext (parseOutdatedPackages lc d) i s ↔
      ∃ e ∈ entryList d, getId e.2.2 = some i ∧ mkContext e.1 e.2.1 = s) :=
  ⟨memResolved_parse lc d, memLatest_parse lc d, memContext_parse lc d⟩

/-- C3: normalization yields exactly one candidate per distinct usable
id — no two output candidates share an id, an id is present exactly when
some entry carries it, and the version and context sets of the candidate
for an id accumulate the data of every entry with that id. -/
theorem parse_one_candidate_per_id (lc : String → String → Int) (d : JValue) :
    ((parseOutdatedPackages lc d).map OutdatedPackage.id).Nodup ∧
    (∀ i, hasId (parseOutdatedPackages lc d) i ↔
      ∃ e ∈ entryList d, getId e.2.2 = some i) ∧
    (∀ i v, memResolved (parseOutdatedPackages lc d) i v ↔
      ∃ e ∈ entryList d,
        getId e.2.2 = some i ∧ getStr e.2.2 "resolvedVersion" = some v ∧ v ≠ "") ∧
    (∀ i v, memLatest (parseOutdatedPackages lc d) i v ↔
      ∃ e ∈ entryList d,
        getId e.2.2 = some i ∧ getStr e.2.2 "latestVersion" = some v ∧ v ≠ "") ∧
    (∀ i s, memContext (parseOutdatedPackages lc d) i s ↔
      ∃ e ∈ entryList d, getId e.2.2 = some i ∧ mkContext e.1 e.2.1 = s) :=
  ⟨nodup_ids_parse lc d, hasId_parse lc d, memResolved_parse lc d,
    memLatest_parse lc d, memContext_parse lc d⟩

/-- C5: normalization is order-independent with respect to candidate
identity: two payloads whose flattened entry streams are permutations of
each other yield the same candidates by id with identical merged version
and context sets, and both outputs are sorted by id under the
comparator. -/
theorem parse_order_independent (lc : String → String → Int)
    (hTot : ∀ a b, lc a b ≤ 0 ∨ lc b a ≤ 0)
    (hTrans : ∀ a b c, lc a b ≤ 0 → lc b c ≤ 0 → lc a c ≤ 0)
    (d1 d2 : JValue) (hperm : (entryList d1).Perm (entryList d2)) :
    (∀ i, hasId (parseOutdatedPackages lc d1) i ↔
      hasId (parseOutdatedPackages lc d2) i) ∧
    (∀ i v, memResolved (parseOutdatedPackages lc d1) i v ↔
      memResolved (parseOutdatedPackages lc d2) i v) ∧
    (∀ i v, memLatest (parseOutdatedPackages lc d1) i v ↔
      memLatest (parseOutdatedPackages lc d2) i v) ∧
    (∀ i s, memContext (parseOutdatedPackages lc d1) i s ↔
      memContext (parseOutdatedPackages lc d2) i s) ∧
    (parseOutdatedPackages lc d1).Pairwise (fun a b => lc a.id b.id ≤ 0) ∧
    (parseOutdatedPackages lc d2).Pairwise (fun a b => lc a.id b.id ≤ 0) := by
  have hex : ∀ (p : String × String × JValue → Prop),
      (∃ e ∈ entryList d1, p e) ↔ (∃ e ∈ entryList d2, p e) := by
    intro p
    constructor
    · rintro ⟨e, he, hp⟩
      exact ⟨e, hperm.mem_iff.1 he, hp⟩
    · rintro ⟨e, he, hp⟩
      exact ⟨e, hperm.mem_iff.2 he, hp⟩
  refine ⟨?_, ?_, ?_, ?_, ?_, ?_⟩
  · intro i
    rw [hasId_parse, hasId_parse]
    exact hex _
  · intro i v
    rw [memResolved_parse, memResolved_parse]
    exact hex _
  · intro i v
    rw [memLatest_parse, memLatest_parse]
    exact hex _
  · intro i s
    rw [memContext_parse, memContext_parse]
    exact hex _
  · exact pairwise_sortCandidates lc hTot hTrans _
  · exact pairwise_sortCandidates lc hTot hTrans _

theorem docPerm_entry_perm : (entryList docPerm1).Perm (entryList docPerm2) := by
  rw [show entryList docPerm1 =
    [("P1", "net8.0", pkgBeta), ("P2", "net8.0", pkgAlpha)] from rfl]
  rw [show entryList docPerm2 =
    [("P2", "net8.0", pkgAlpha), ("P1", "net8.0", pkgBeta)] from rfl]
  exact List.Perm.swap _ _ _

/-- Witness for C5 on two concrete payloads whose entry streams are the
two orderings of the same two entries. -/
theorem parse_order_independent_witness :
    (∀ i, hasId (parseOutdatedPackages lcDefault docPerm1) i ↔
      hasId (parseOutdatedPackages lcDefault docPerm2) i) ∧
    (∀ i v, memResolved (parseOutdatedPackages lcDefault docPerm1) i v ↔
      memResolved (parseOutdatedPackages lcDefault docPerm2) i v) ∧
    (∀ i v, memLatest (parseOutdatedPackages lcDefault docPerm1) i v ↔
      memLatest (parseOutdatedPackages lcDefault docPerm2) i v) ∧
    (∀ i s, memContext (parseOutdatedPackages lcDefault docPerm1) i s ↔
      memContext (parseOutdatedPackages lcDefault docPerm2) i s) ∧
    (parseOutdatedPackages lcDefault docPerm1).Pairwise
      (fun a b => lcDefault a.id b.id ≤ 0) ∧
    (parseOutdatedPackages lcDefault docPerm2).Pairwise
      (fun a b => lcDefault a.id b.id ≤ 0) :=
  parse_order_independent lcDefault lcDefault_total lcDefault_trans docPerm1 docPerm2
    docPerm_entry_perm

/-- C6: the candidate sequence produced by normalization is sorted by id
in ascending order under the (abstracted, consistency-assumed)
locale-aware comparator. -/
theorem parse_sorted (lc : String → String → Int)
    (hTot : ∀ a b, lc a b ≤ 0 ∨ lc b a ≤ 0)
    (hTrans : ∀ a b c, lc a b ≤ 0 → lc b c ≤ 0 → lc a c ≤ 0) (d : JValue) :
    (parseOutdatedPackages lc d).Pairwise (fun a b => lc a.id b.id ≤ 0) :=
  pairwise_sortCandidates lc hTot hTrans _

/-- Witness for C6: the two-package payload comes out sorted. -/
theorem parse_sorted_witness :
    (parseOutdatedPackages lcDefault docPerm1).Pairwise
      (fun a b => lcDefault a.id b.id ≤ 0) :=
  parse_sorted lcDefault lcDefault_total lcDefault_trans docPerm1

/-- C7: when the earlier gates pass, a non-empty candidate list is
presented, and the user's selection is cancelled or empty, the run ends
with the neutral nothing-selected report and no tool-presence probe,
tool-installation call, or constrained upgrade call is ever issued. -/
theorem empty_selection_halts (env : Env) (data : JValue)
    (hw : env.hasWorkspace = true)
    (hl : env.listCode = 0)
    (ho : env.outdatedCode = 0)
    (hp : noPayload env.outdatedStdout env.outdatedStderr = false)
    (hd : env.parsed = some data)
    (hne : parseOutdatedPackages env.lc data ≠ [])
    (hsel : env.selection = none ∨ env.selection = some []) :
    runUpgradeCommand env =
      ([ExtCall.listPackage, ExtCall.outdatedCheck], RunOutcome.infoNothingSelected) ∧
    ExtCall.toolProbe ∉ (runUpgradeCommand env).1 ∧
    ExtCall.toolInstall ∉ (runUpgradeCommand env).1 ∧
    ∀ ids, ExtCall.upgrade ids ∉ (runUpgradeCommand env).1 := by
  have heq : runUpgradeCommand env =
      ([ExtCall.listPackage, ExtCall.outdatedCheck], RunOutcome.infoNothingSelected) := by
    rcases hsel with h | h <;>
      simp [runUpgradeCommand, hw, hl, ho, hp, hd, hne, h, List.length_eq_zero]
  refine ⟨heq, ?_, ?_, ?_⟩
  · rw [heq]
    simp
  · rw [heq]
    simp
  · intro ids
    rw [heq]
    simp

/-- Environment fixture: every external call succeeds, a candidate is
available, and the user cancels the QuickPick. -/
def envNothingSelected : Env where
  hasWorkspace := true
  listCode := 0
  outdatedCode := 0
  outdatedStdout := "payload"
  outdatedStderr := ""
  parsed := some docSimple
  selection := none
  probeCode := 0
  installCode := 0
  upgradeCode := 0
  lc := lcDefault

/-- Witness for C7: the cancelled-selection run stops after the two list
calls. -/
theorem empty_selection_halts_witness :
    runUpgradeCommand envNothingSelected =
      ([ExtCall.listPackage, ExtCall.outdatedCheck], RunOutcome.infoNothingSelected) ∧
    ExtCall.toolProbe ∉ (runUpgradeCommand envNothingSelected).1 ∧
    ExtCall.toolInstall ∉ (runUpgradeCommand envNothingSelected).1 ∧
    ∀ ids, ExtCall.upgrade ids ∉ (runUpgradeCommand envNothingSelected).1 :=
  empty_selection_halts envNothingSelected docSimple rfl rfl rfl (by decide) rfl
    (by decide) (Or.inl rfl)

/-- C10: every candidate produced by normalization carries only
non-empty version strings in both version sets, and a non-empty context
set. -/
theorem parse_invariant (lc : String → String → Int) (d : JValue) :
    ∀ c ∈ parseOutdatedPackages lc d,
      (∀ v ∈ c.resolvedVersions, v ≠ "") ∧ (∀ v ∈ c.latestVersions, v ≠ "") ∧
        c.contexts ≠ [] :=
  goodPkg_parse lc d

/-- Witness for C10 at the sample payload's single candidate. -/
theorem parse_invariant_witness :
    (∀ v ∈ (["13.0.1"] : List String), v ≠ "") ∧
    (∀ v ∈ (["13.0.3"] : List String), v ≠ "") ∧
    (["App (net8.0)"] : List String) ≠ [] :=
  parse_invariant lcDefault docSimple
    ⟨"Newtonsoft.Json", ["13.0.1"], ["13.0.3"], ["App (net8.0)"]⟩ (by decide)
